import Mathlib

/-!
Shallow embedding of the sync-folder client's upload pipeline
(`src/client/monitor.py` and `src/client/utils.py`).

Paths are strings. The filesystem is an association list from path to
`FileInfo` (directory flag and size in bytes); a path absent from the list
does not exist, and `stat` on it models the `FileNotFoundError` that
`Path(p).stat()` raises. The network is an oracle `net : List String → Bool`
giving, per batch, whether `upload_files` (a `requests.post` followed by
`raise_for_status`) succeeds; `false` models the exception it raises.
Fallible Python code is embedded with `Except`.
-/

set_option autoImplicit false

/-- Metadata returned by `Path(p).stat()` (plus the `is_dir` flag). -/
structure FileInfo where
  isDir : Bool
  size : Nat
  deriving DecidableEq

/-- The filesystem: an association list from path to `FileInfo`. -/
abbrev FS := List (String × FileInfo)

/-- Model of `Path(p).stat()` / existence: first binding for `p`, `none` if `p` does not
exist. -/
def FS.stat : FS → String → Option FileInfo
  | [], _ => none
  | (q, i) :: rest, p => if p = q then some i else FS.stat rest p

/-- Constant `BATCH_MAX_SIZE_IN_BYTES = 30 * 1024 * 1024` from `monitor.py`. -/
def BATCH_MAX_SIZE_IN_BYTES : Nat := 30 * 1024 * 1024

/-- Size of a path, `0` for a missing path (used only to state theorems whose
hypotheses rule the missing case out). -/
def sizeOfPath (fs : FS) (p : String) : Nat :=
  match FS.stat fs p with
  | some i => i.size
  | none => 0

/-- Model of `filter_out_max_size` from `monitor.py`: keeps the paths whose size is at
most `max_size_in_bytes`, dropping (with a logged error) the larger ones.
`Path(filepath).stat()` on a missing path raises `FileNotFoundError`,
embedded as `Except.error` carrying the offending path. -/
def filter_out_max_size (fs : FS) (filepaths : List String)
    (max_size_in_bytes : Nat) : Except String (List String) :=
  match filepaths with
  | [] => .ok []
  | filepath :: rest =>
    match FS.stat fs filepath with
    | none => .error filepath
    | some info =>
      match filter_out_max_size fs rest max_size_in_bytes with
      | .error e => .error e
      | .ok files =>
        if info.size > max_size_in_bytes then .ok files
        else .ok (filepath :: files)

/-- Loop of `group_by_chunks_of_max_size`. The Python accumulator
`files : list[list[str]]` (whose last element is the chunk being built) is
represented as `done ++ [cur]`; `files.append([filepath])` becomes
`done := done ++ [cur], cur := [filepath]`, and `files[-1].append(filepath)`
becomes `cur := cur ++ [filepath]`. `sum_size` is the running size of `cur`.
`stat` on a missing path raises, embedded as `Except.error`. -/
def groupGo (fs : FS) (max_sum_size : Nat) :
    List String → List (List String) → List String → Nat →
    Except String (List (List String))
  | [], done, cur, _ => .ok (done ++ [cur])
  | filepath :: rest, done, cur, sum_size =>
    match FS.stat fs filepath with
    | none => .error filepath
    | some info =>
      if sum_size + info.size > max_sum_size then
        groupGo fs max_sum_size rest (done ++ [cur]) [filepath] info.size
      else
        groupGo fs max_sum_size rest done (cur ++ [filepath])
          (sum_size + info.size)

/-- Model of `group_by_chunks_of_max_size` from `monitor.py`: greedy left-to-right
packing starting from `files = [[]]`, `sum_size = 0`. -/
def group_by_chunks_of_max_size (fs : FS) (filepaths : List String)
    (max_sum_size : Nat) : Except String (List (List String)) :=
  groupGo fs max_sum_size filepaths [] [] 0

/-- Model of `upload_files(filepaths, upload_url)` from `monitor.py`: posts the batch;
the network oracle decides success (`true` = 2xx) or the raised exception
(`false`). -/
def upload_files (net : List String → Bool) (filepaths : List String) : Bool :=
  net filepaths

/-- The `for filepaths in chunks_of_filepaths: upload_files(...)` loop inside
the flush's `try`: sends chunks in order, stopping at the first failure
(the raised exception aborts the loop). Returns the list of chunks for which
`upload_files` was invoked, and whether every send succeeded. -/
def sendChunks (net : List String → Bool) :
    List (List String) → List (List String) × Bool
  | [] => ([], true)
  | c :: rest =>
    if upload_files net c then
      let r := sendChunks net rest
      (c :: r.1, r.2)
    else ([c], false)

/-- Model of `deque.remove(p)`: removes the first occurrence of `p` if present,
raises `ValueError` otherwise. -/
def dequeRemove (queue : List String) (p : String) :
    Except String (List String) :=
  if p ∈ queue then .ok (queue.erase p) else .error "ValueError"

/-- The `for filepath in filepaths: self.upload_queue.remove(filepath)` loop:
removes the given paths from the queue in order; a `ValueError` (absent path)
aborts the loop, returning the queue state at the raise (`Except.error`). -/
def removeAll (queue : List String) : List String → Except (List String) (List String)
  | [] => .ok queue
  | p :: rest =>
    match dequeRemove queue p with
    | .ok q => removeAll q rest
    | .error _ => .error queue

/-- Outcome of one flush: the `upload_queue` afterwards, the batches for which
`upload_files` was invoked (in order), and whether an exception escaped the
flush unhandled (it does when `filter_out_max_size` or
`group_by_chunks_of_max_size` raises, since both run before the `try`). -/
structure FlushResult where
  queue : List String
  sent : List (List String)
  crashed : Bool
  deriving DecidableEq

/-- Model of `debounced_upload_from_queue` from `monitor.py` (the flush body, minus the
debounce wrapper): snapshot the queue, filter oversized paths, group into
chunks, send each chunk, and — only when every send succeeded — remove from
the queue the paths of the loop variable `filepaths`, which by then holds the
LAST chunk (or, were the chunk list empty, the filtered snapshot). A send
failure or a `ValueError` during removal is caught by the `except` and
logged; a `stat` failure in filter/group escapes unhandled. -/
def debounced_upload_from_queue (fs : FS) (net : List String → Bool)
    (max : Nat) (upload_queue : List String) : FlushResult :=
  match filter_out_max_size fs upload_queue max with
  | .error _ => ⟨upload_queue, [], true⟩
  | .ok filtered =>
    match group_by_chunks_of_max_size fs filtered max with
    | .error _ => ⟨upload_queue, [], true⟩
    | .ok chunks =>
      match sendChunks net chunks with
      | (sent, false) => ⟨upload_queue, sent, false⟩
      | (sent, true) =>
        match removeAll upload_queue (chunks.getLast?.getD filtered) with
        | .ok q => ⟨q, sent, false⟩
        | .error q => ⟨q, sent, false⟩

/-- Body of the loop in the handler method
`UploadFileEventHandler.upload_files`: enqueue one path unless it does not
exist, is a directory, is already queued, or exceeds the size limit. -/
def enqueuePath (fs : FS) (max : Nat) (queue : List String) (path : String) :
    List String :=
  match FS.stat fs path with
  | none => queue
  | some info =>
    if info.isDir then queue
    else if path ∈ queue then queue
    else if info.size > max then queue
    else queue ++ [path]

/-- Model of the method `UploadFileEventHandler.upload_files` from `monitor.py`: enqueue each of
the given paths in order (the trailing `debounced_upload_from_queue()` call
only re-arms the timer and does not touch the queue). -/
def UploadFileEventHandler.upload_files (fs : FS) (max : Nat)
    (queue : List String) (filepaths : List String) : List String :=
  filepaths.foldl (enqueuePath fs max) queue

/-- Timed-trace semantics of `debounce` from `utils.py`. Each call starts a
`Timer(wait_seconds, call_it)` after cancelling the previous one;
`Timer.cancel` at time `t` succeeds iff the timer's deadline has not yet been
reached (`t <` start `+ w`). Given the sorted times of the `notify` calls,
this counts how often the wrapped flush runs: a timer started at `t₁` fires
before the next call at `t₂` iff `t₁ + w ≤ t₂`, and the final timer always
fires once the trace ends. -/
def debounceFires (w : Nat) : List Nat → Nat
  | [] => 0
  | [_] => 1
  | t₁ :: t₂ :: rest =>
    (if t₁ + w ≤ t₂ then 1 else 0) + debounceFires w (t₂ :: rest)

/-! ### Concrete fixtures -/

/-- Two regular files `a`, `b` of 2 bytes each. -/
def fsAB : FS := [("a", ⟨false, 2⟩), ("b", ⟨false, 2⟩)]

/-- Two regular files `x`, `y` of 2 bytes each. -/
def fsXY : FS := [("x", ⟨false, 2⟩), ("y", ⟨false, 2⟩)]

/-- One regular file `big` of 5 bytes. -/
def fsBig : FS := [("big", ⟨false, 5⟩)]

/-- One regular file `b` of 1 byte (useful when `a` must be missing). -/
def fsB : FS := [("b", ⟨false, 1⟩)]

/-- Regular files `a`, `b` of 2 bytes and `c` of 5 bytes. -/
def fsABC : FS := [("a", ⟨false, 2⟩), ("b", ⟨false, 2⟩), ("c", ⟨false, 5⟩)]

/-- A network on which every send succeeds. -/
def netTrue : List String → Bool := fun _ => true

/-- A network that fails exactly on the batch `["y"]`. -/
def netNotY : List String → Bool := fun b => !(b == ["y"])

/-- A network that fails exactly on the batch `["x"]`. -/
def netNotX : List String → Bool := fun b => !(b == ["x"])

/-! ### Helper lemmas -/

/-- The send loop, when every batch before `c` succeeds and `c` fails, attempts
exactly the batches up to and including `c` and reports failure. -/
theorem sendChunks_stops_at_first_failure (net : List String → Bool)
    (pre : List (List String)) (c : List String) (post : List (List String))
    (hpre : ∀ b ∈ pre, net b = true) (hc : net c = false) :
    sendChunks net (pre ++ c :: post) = (pre ++ [c], false) := by
  induction pre with
  | nil => simp [sendChunks, upload_files, hc]
  | cons b rest ih =>
    have hb : net b = true := hpre b (by simp)
    have ih' := ih fun b' hb' => hpre b' (by simp [hb'])
    simp [sendChunks, upload_files, hb, ih']

/-! ### Claim theorems -/

/-- C1: the spec requires that when every send of a flush succeeds, every path
of every sent batch is removed from the pending queue. The code removes only
the paths of the loop variable `filepaths`, which after the send loop holds
the last chunk: with queue `[a, b]` (2 bytes each), batch ceiling 3 and a
network on which every send succeeds, the flush sends `[[a], [b]]` but leaves
`a` pending. -/
theorem flush_all_success_leaves_first_batch_pending :
    debounced_upload_from_queue fsAB netTrue 3 ["a", "b"] =
      ⟨["a"], [["a"], ["b"]], false⟩ ∧
    "a" ∈ (debounced_upload_from_queue fsAB netTrue 3 ["a", "b"]).queue := by
  constructor <;> decide

/-- C2: the spec requires that after a flush with batches `B1 = [x]`
(succeeds) and `B2 = [y]` (fails), the pending queue is exactly `[y]`. In the
code the exception raised for `B2` skips the whole removal loop, so the queue
stays `[x, y]`. -/
theorem flush_failed_second_batch_keeps_first_pending :
    debounced_upload_from_queue fsXY netNotY 3 ["x", "y"] =
      ⟨["x", "y"], [["x"], ["y"]], false⟩ ∧
    (debounced_upload_from_queue fsXY netNotY 3 ["x", "y"]).queue ≠ ["y"] := by
  constructor <;> decide

/-- C3 counterexample: with batches `[[x], [y]]` and the send of `[x]`
failing, the flush attempts only `[x]` — the subsequent batch `[y]` is never
sent, contradicting the claim that processing of later batches continues. -/
theorem flush_failure_aborts_remaining_batches :
    debounced_upload_from_queue fsXY netNotX 3 ["x", "y"] =
      ⟨["x", "y"], [["x"]], false⟩ ∧
    ["y"] ∉ (debounced_upload_from_queue fsXY netNotX 3 ["x", "y"]).sent := by
  constructor <;> decide

/-- C3 amended: when a batch's send fails, every pending path stays in the
queue (nothing is removed), and the batches after the failing one are NOT
attempted — the flush stops at the first failure, which is logged. -/
theorem flush_stops_at_failed_batch (fs : FS) (net : List String → Bool)
    (max : Nat) (queue filtered : List String)
    (pre : List (List String)) (c : List String) (post : List (List String))
    (hf : filter_out_max_size fs queue max = .ok filtered)
    (hg : group_by_chunks_of_max_size fs filtered max = .ok (pre ++ c :: post))
    (hpre : ∀ b ∈ pre, net b = true) (hc : net c = false) :
    (debounced_upload_from_queue fs net max queue).queue = queue ∧
    (debounced_upload_from_queue fs net max queue).sent = pre ++ [c] := by
  have hs := sendChunks_stops_at_first_failure net pre c post hpre hc
  simp [debounced_upload_from_queue, hf, hg, hs]

/-- Witness for `flush_stops_at_failed_batch` at the two-batch fixture. -/
theorem flush_stops_at_failed_batch_witness :
    filter_out_max_size fsXY ["x", "y"] 3 = .ok ["x", "y"] ∧
    group_by_chunks_of_max_size fsXY ["x", "y"] 3 =
      .ok ([] ++ ["x"] :: [["y"]]) ∧
    netNotX ["x"] = false ∧
    (debounced_upload_from_queue fsXY netNotX 3 ["x", "y"]).queue =
      ["x", "y"] ∧
    (debounced_upload_from_queue fsXY netNotX 3 ["x", "y"]).sent =
      [] ++ [["x"]] :=
  ⟨rfl, rfl, by decide,
    (flush_stops_at_failed_batch fsXY netNotX 3 ["x", "y"] ["x", "y"]
      [] ["x"] [["y"]] rfl rfl (by simp) (by decide)).1,
    (flush_stops_at_failed_batch fsXY netNotX 3 ["x", "y"] ["x", "y"]
      [] ["x"] [["y"]] rfl rfl (by simp) (by decide)).2⟩

/-- C8: N notify calls each arriving strictly within the debounce interval of
the previous one produce exactly one flush invocation — every call but the
last cancels a timer whose deadline has not yet been reached, and only the
last timer fires. -/
theorem debounce_coalesces (w : Nat) (times : List Nat) (hne : times ≠ [])
    (hgap : times.Chain' fun a b => b < a + w) :
    debounceFires w times = 1 := by
  induction times with
  | nil => cases hne rfl
  | cons t rest ih =>
    cases rest with
    | nil => rfl
    | cons t₂ rest₂ =>
      have h₁ : t₂ < t + w := (List.chain'_cons.mp hgap).1
      have h₂ := (List.chain'_cons.mp hgap).2
      have := ih (by simp) h₂
      simp only [debounceFires, this]
      rw [if_neg (by omega)]

/-- Witness for `debounce_coalesces`: three notify calls at times 0, 2, 4 with
a debounce interval of 3. -/
theorem debounce_coalesces_witness :
    ([0, 2, 4] : List Nat) ≠ [] ∧
    ([0, 2, 4] : List Nat).Chain' (fun a b => b < a + 3) ∧
    debounceFires 3 [0, 2, 4] = 1 :=
  ⟨by decide, by simp [List.chain'_cons], debounce_coalesces 3 [0, 2, 4]
    (by decide) (by simp [List.chain'_cons])⟩

/-- C9 counterexample: `deque.remove` on an absent path raises `ValueError`
(here: removing `b` from the queue `[a]`), contradicting the claim that
removal of an absent path does not raise. -/
theorem remove_absent_raises_value_error :
    dequeRemove ["a"] "b" = .error "ValueError" := rfl

/-- C9 amended: removing an absent path raises `ValueError`; the queue itself
is left unchanged by the failed call (the exception is raised before any
mutation, and in the flush it is caught by the surrounding `except`, aborting
the rest of the removal loop). -/
theorem remove_absent_raises_and_preserves (queue : List String) (p : String)
    (h : p ∉ queue) :
    dequeRemove queue p = .error "ValueError" ∧
    removeAll queue [p] = .error queue := by
  refine ⟨?_, ?_⟩ <;> simp [removeAll, dequeRemove, h]

/-- Witness for `remove_absent_raises_and_preserves` on the queue `[x, y]`. -/
theorem remove_absent_raises_and_preserves_witness :
    "z" ∉ (["x", "y"] : List String) ∧
    dequeRemove ["x", "y"] "z" = .error "ValueError" ∧
    removeAll ["x", "y"] ["z"] = .error ["x", "y"] :=
  ⟨by decide,
    (remove_absent_raises_and_preserves ["x", "y"] "z" (by decide)).1,
    (remove_absent_raises_and_preserves ["x", "y"] "z" (by decide)).2⟩
/-- Every path kept by the size filter was in the input, exists, and is
within the limit. -/
theorem filter_out_max_size_mem (fs : FS) (max : Nat) :
    ∀ (input res : List String), filter_out_max_size fs input max = .ok res →
      ∀ q ∈ res, q ∈ input ∧ ∃ i, FS.stat fs q = some i ∧ i.size ≤ max := by
  intro input
  induction input with
  | nil =>
    intro res h q hq
    simp only [filter_out_max_size] at h
    injection h with h'
    subst h'
    simp at hq
  | cons p rest ih =>
    intro res h q hq
    cases hstat : FS.stat fs p with
    | none => simp [filter_out_max_size, hstat] at h
    | some info =>
      cases hrec : filter_out_max_size fs rest max with
      | error e => simp [filter_out_max_size, hstat, hrec] at h
      | ok files =>
        simp only [filter_out_max_size, hstat, hrec] at h
        by_cases hsize : info.size > max
        · rw [if_pos hsize] at h
          injection h with h'
          subst h'
          obtain ⟨hmem, i, hi, hle⟩ := ih files hrec q hq
          exact ⟨by simp [hmem], i, hi, hle⟩
        · rw [if_neg hsize] at h
          injection h with h'
          subst h'
          rcases List.mem_cons.mp hq with rfl | hq'
          · exact ⟨by simp, info, hstat, by omega⟩
          · obtain ⟨hmem, i, hi, hle⟩ := ih files hrec q hq'
            exact ⟨by simp [hmem], i, hi, hle⟩

/-- If some path of its input is missing, the size filter raises
(`Path.stat` fails) instead of returning a filtered list. -/
theorem filter_out_max_size_missing (fs : FS) (max : Nat) :
    ∀ (input : List String) (p : String), p ∈ input → FS.stat fs p = none →
      ∃ e, filter_out_max_size fs input max = .error e := by
  intro input
  induction input with
  | nil => intro p hp _; simp at hp
  | cons q rest ih =>
    intro p hp hstat
    rcases List.mem_cons.mp hp with rfl | hp'
    · exact ⟨p, by simp [filter_out_max_size, hstat]⟩
    · cases hq : FS.stat fs q with
      | none => exact ⟨q, by simp [filter_out_max_size, hq]⟩
      | some info =>
        obtain ⟨e, he⟩ := ih p hp' hstat
        refine ⟨e, ?_⟩
        simp [filter_out_max_size, hq, he]

/-- Every path of every chunk produced by the grouping loop satisfies any
predicate holding on the accumulator and the input. -/
theorem groupGo_mem (fs : FS) (max : Nat) (Q : String → Prop) :
    ∀ (input : List String) (done : List (List String)) (cur : List String)
      (s : Nat) (res : List (List String)),
      (∀ b ∈ done, ∀ q ∈ b, Q q) → (∀ q ∈ cur, Q q) → (∀ q ∈ input, Q q) →
      groupGo fs max input done cur s = .ok res →
      ∀ b ∈ res, ∀ q ∈ b, Q q := by
  intro input
  induction input with
  | nil =>
    intro done cur s res hdone hcur _ h b hb q hq
    simp only [groupGo] at h
    injection h with h'
    subst h'
    rcases List.mem_append.mp hb with h₁ | h₁
    · exact hdone b h₁ q hq
    · rw [List.mem_singleton.mp h₁] at hq
      exact hcur q hq
  | cons p rest ih =>
    intro done cur s res hdone hcur hinput h
    have hp : Q p := hinput p (by simp)
    have hrest : ∀ q ∈ rest, Q q := fun q hq => hinput q (by simp [hq])
    cases hstat : FS.stat fs p with
    | none => simp [groupGo, hstat] at h
    | some info =>
      simp only [groupGo, hstat] at h
      by_cases hcond : s + info.size > max
      · rw [if_pos hcond] at h
        refine ih _ _ _ _ ?_ ?_ hrest h
        · intro b hb q hq
          rcases List.mem_append.mp hb with h₁ | h₁
          · exact hdone b h₁ q hq
          · rw [List.mem_singleton.mp h₁] at hq
            exact hcur q hq
        · intro q hq
          rw [List.mem_singleton.mp hq]
          exact hp
      · rw [if_neg hcond] at h
        refine ih _ _ _ _ hdone ?_ hrest h
        intro q hq
        rcases List.mem_append.mp hq with h₁ | h₁
        · exact hcur q h₁
        · rw [List.mem_singleton.mp h₁]
          exact hp

/-- The grouping loop only ever appends to `done`: a successful run returns
an extension of the accumulated chunk list. -/
theorem groupGo_extends (fs : FS) (max : Nat) :
    ∀ (input : List String) (done : List (List String)) (cur : List String)
      (s : Nat) (res : List (List String)),
      groupGo fs max input done cur s = .ok res →
      ∃ suf, res = done ++ suf := by
  intro input
  induction input with
  | nil =>
    intro done cur s res h
    simp only [groupGo] at h
    injection h with h'
    exact ⟨[cur], h'.symm⟩
  | cons p rest ih =>
    intro done cur s res h
    cases hstat : FS.stat fs p with
    | none => simp [groupGo, hstat] at h
    | some info =>
      simp only [groupGo, hstat] at h
      by_cases hcond : s + info.size > max
      · rw [if_pos hcond] at h
        obtain ⟨suf, hsuf⟩ := ih _ _ _ _ h
        exact ⟨[cur] ++ suf, by simp [hsuf]⟩
      · rw [if_neg hcond] at h
        exact ih _ _ _ _ h

/-- Every batch the send loop attempts comes from the chunk list. -/
theorem sendChunks_sent_mem (net : List String → Bool) :
    ∀ (chunks : List (List String)), ∀ b ∈ (sendChunks net chunks).1,
      b ∈ chunks := by
  intro chunks
  induction chunks with
  | nil => simp [sendChunks]
  | cons c rest ih =>
    intro b hb
    cases hc : upload_files net c with
    | true =>
      simp only [sendChunks, hc, if_true] at hb
      rcases List.mem_cons.mp hb with rfl | hb'
      · simp
      · simp [ih b hb']
    | false =>
      simp only [sendChunks, hc, if_false] at hb
      rw [List.mem_singleton.mp hb]
      simp

/-- A pending path named by none of the removal targets survives the removal
loop, whether it completes or is aborted by a `ValueError`. -/
theorem removeAll_retains (p : String) :
    ∀ (ps queue : List String), p ∈ queue → (∀ q ∈ ps, p ≠ q) →
      ∀ q', (removeAll queue ps = .ok q' ∨ removeAll queue ps = .error q') →
        p ∈ q' := by
  intro ps
  induction ps with
  | nil =>
    intro queue hp _ q' h
    rcases h with h | h <;> simp only [removeAll] at h
    · injection h with h'
      subst h'
      exact hp
    · exact absurd h (by simp)
  | cons r rest ih =>
    intro queue hp hne q' h
    have hpr : p ≠ r := hne r (by simp)
    have hner : ∀ q ∈ rest, p ≠ q := fun q hq => hne q (by simp [hq])
    by_cases hr : r ∈ queue
    · have hd : dequeRemove queue r = .ok (queue.erase r) := by
        simp [dequeRemove, hr]
      have hp' : p ∈ queue.erase r := (List.mem_erase_of_ne hpr).mpr hp
      rcases h with h | h <;> simp only [removeAll, hd] at h
      · exact ih (queue.erase r) hp' hner q' (Or.inl h)
      · exact ih (queue.erase r) hp' hner q' (Or.inr h)
    · have hd : dequeRemove queue r = .error "ValueError" := by
        simp [dequeRemove, hr]
      rcases h with h | h <;> simp only [removeAll, hd] at h
      · exact absurd h (by simp)
      · injection h with h'
        subst h'
        exact hp

/-- C4 counterexample: with the 5-byte file `big` pending and size limit 3,
the flush rejects `big` (error logged) but does NOT remove it from the
queue: `big` is still pending after the flush, so the next flush's snapshot
contains it again. -/
theorem oversized_path_not_removed :
    debounced_upload_from_queue fsBig netTrue 3 ["big"] =
      ⟨["big"], [[]], false⟩ ∧
    "big" ∈ (debounced_upload_from_queue fsBig netTrue 3 ["big"]).queue := by
  constructor <;> decide

/-- C4 amended: an oversized pending path is excluded from every batch the
flush sends (it is rejected with a logged error), but it is NOT removed from
the pending queue — it survives the flush and reappears in every later
snapshot. -/
theorem oversized_path_retained_never_sent (fs : FS)
    (net : List String → Bool) (max : Nat) (queue : List String) (p : String)
    (i : FileInfo) (hq : p ∈ queue) (hstat : FS.stat fs p = some i)
    (hsize : max < i.size) :
    p ∈ (debounced_upload_from_queue fs net max queue).queue ∧
    ∀ b ∈ (debounced_upload_from_queue fs net max queue).sent, p ∉ b := by
  cases hf : filter_out_max_size fs queue max with
  | error e =>
    constructor
    · simpa [debounced_upload_from_queue, hf] using hq
    · simp [debounced_upload_from_queue, hf]
  | ok filtered =>
    have hpf : p ∉ filtered := by
      intro hmem
      obtain ⟨-, j, hj, hle⟩ := filter_out_max_size_mem fs max queue filtered
        hf p hmem
      rw [hstat] at hj
      injection hj with hj'
      subst hj'
      omega
    cases hg : group_by_chunks_of_max_size fs filtered max with
    | error e =>
      constructor
      · simpa [debounced_upload_from_queue, hf, hg] using hq
      · simp [debounced_upload_from_queue, hf, hg]
    | ok chunks =>
      have hcmem : ∀ b ∈ chunks, ∀ q ∈ b, q ∈ filtered :=
        groupGo_mem fs max (· ∈ filtered) filtered [] [] 0 chunks
          (by simp) (by simp) (fun q hq => hq) hg
      have hnotin : ∀ b ∈ chunks, p ∉ b := fun b hb hpb =>
        hpf (hcmem b hb p hpb)
      rcases hsc : sendChunks net chunks with ⟨sent, ok⟩
      have hsent : ∀ b ∈ sent, p ∉ b := by
        intro b hb
        refine hnotin b ?_
        have := sendChunks_sent_mem net chunks b
        rw [hsc] at this
        exact this hb
      have hlast : ∀ q ∈ chunks.getLast?.getD filtered, q ∈ filtered := by
        cases hl : chunks.getLast? with
        | none => intro q hqq; simpa using hqq
        | some b =>
          intro q hqq
          simp only [Option.getD_some] at hqq
          have hb : b ∈ chunks := by
            obtain ⟨hne, hbeq⟩ := List.mem_getLast?_eq_getLast
              (l := chunks) (x := b) (Option.mem_def.mpr hl)
            rw [hbeq]
            exact List.getLast_mem hne
          exact hcmem b hb q hqq
      have hnel : ∀ q ∈ chunks.getLast?.getD filtered, p ≠ q := by
        intro q hqq hpq
        subst hpq
        exact hpf (hlast p hqq)
      cases ok with
      | false =>
        constructor
        · simpa [debounced_upload_from_queue, hf, hg, hsc] using hq
        · intro b hb
          refine hsent b ?_
          simpa [debounced_upload_from_queue, hf, hg, hsc] using hb
      | true =>
        cases hra : removeAll queue (chunks.getLast?.getD filtered) with
        | ok q' =>
          constructor
          · simpa [debounced_upload_from_queue, hf, hg, hsc, hra] using
              removeAll_retains p _ queue hq hnel q' (Or.inl hra)
          · intro b hb
            refine hsent b ?_
            simpa [debounced_upload_from_queue, hf, hg, hsc, hra] using hb
        | error q' =>
          constructor
          · simpa [debounced_upload_from_queue, hf, hg, hsc, hra] using
              removeAll_retains p _ queue hq hnel q' (Or.inr hra)
          · intro b hb
            refine hsent b ?_
            simpa [debounced_upload_from_queue, hf, hg, hsc, hra] using hb

/-- Witness for `oversized_path_retained_never_sent`: the 5-byte file `big`
with limit 3 stays pending and is in no sent batch. -/
theorem oversized_path_retained_never_sent_witness :
    "big" ∈ (["big"] : List String) ∧
    FS.stat fsBig "big" = some ⟨false, 5⟩ ∧ (3 : Nat) < 5 ∧
    "big" ∈ (debounced_upload_from_queue fsBig netTrue 3 ["big"]).queue ∧
    "big" ∉ ([] : List String) :=
  ⟨by decide, rfl, by decide,
    (oversized_path_retained_never_sent fsBig netTrue 3 ["big"] "big"
      ⟨false, 5⟩ (by decide) rfl (by decide)).1,
    (oversized_path_retained_never_sent fsBig netTrue 3 ["big"] "big"
      ⟨false, 5⟩ (by decide) rfl (by decide)).2 [] (by decide)⟩

/-- C5 counterexample: queue `[a, b]` where `a` was deleted before the flush.
`Path(a).stat()` raises inside `filter_out_max_size`, outside the `try`, so
the whole flush aborts: nothing is reported per-path, nothing is removed
from the queue, and the surviving path `b` is not processed either. -/
theorem missing_path_crashes_flush :
    debounced_upload_from_queue fsB netTrue 3 ["a", "b"] =
      ⟨["a", "b"], [], true⟩ ∧
    "a" ∈ (debounced_upload_from_queue fsB netTrue 3 ["a", "b"]).queue ∧
    (debounced_upload_from_queue fsB netTrue 3 ["a", "b"]).sent = [] := by
  refine ⟨by decide, by decide, by decide⟩

/-- C5 amended: if any path of the snapshot no longer exists when the size
filter runs, the `stat` exception escapes the flush unhandled: no batch is
sent, no path (missing or not) is removed, and the remaining paths are not
processed in that flush. -/
theorem flush_aborts_on_missing_path (fs : FS) (net : List String → Bool)
    (max : Nat) (queue : List String) (p : String) (hq : p ∈ queue)
    (hstat : FS.stat fs p = none) :
    debounced_upload_from_queue fs net max queue = ⟨queue, [], true⟩ := by
  obtain ⟨e, he⟩ := filter_out_max_size_missing fs max queue p hq hstat
  simp [debounced_upload_from_queue, he]

/-- Witness for `flush_aborts_on_missing_path` with queue `[b, a]` where `a`
is missing. -/
theorem flush_aborts_on_missing_path_witness :
    "a" ∈ (["b", "a"] : List String) ∧ FS.stat fsB "a" = none ∧
    debounced_upload_from_queue fsB netTrue 3 ["b", "a"] =
      ⟨["b", "a"], [], true⟩ :=
  ⟨by decide, rfl,
    flush_aborts_on_missing_path fsB netTrue 3 ["b", "a"] "a" (by decide) rfl⟩

/-- Size invariant carried by the grouping loop: every finished chunk, and
the chunk under construction, is within the limit or is a lone oversized
path. -/
theorem groupGo_size_invariant (fs : FS) (max : Nat) :
    ∀ (input : List String) (done : List (List String)) (cur : List String)
      (s : Nat) (res : List (List String)),
      (∀ b ∈ done, (b.map (sizeOfPath fs)).sum ≤ max ∨
        ∃ p, b = [p] ∧ max < sizeOfPath fs p) →
      (cur.map (sizeOfPath fs)).sum = s →
      ((cur.map (sizeOfPath fs)).sum ≤ max ∨
        ∃ p, cur = [p] ∧ max < sizeOfPath fs p) →
      groupGo fs max input done cur s = .ok res →
      ∀ b ∈ res, (b.map (sizeOfPath fs)).sum ≤ max ∨
        ∃ p, b = [p] ∧ max < sizeOfPath fs p := by
  intro input
  induction input with
  | nil =>
    intro done cur s res hdone _ hcur h b hb
    simp only [groupGo] at h
    injection h with h'
    subst h'
    rcases List.mem_append.mp hb with h₁ | h₁
    · exact hdone b h₁
    · rw [List.mem_singleton.mp h₁]
      exact hcur
  | cons p rest ih =>
    intro done cur s res hdone hsum hcur h
    cases hstat : FS.stat fs p with
    | none => simp [groupGo, hstat] at h
    | some info =>
      have hsz : sizeOfPath fs p = info.size := by simp [sizeOfPath, hstat]
      simp only [groupGo, hstat] at h
      by_cases hcond : s + info.size > max
      · rw [if_pos hcond] at h
        refine ih _ _ _ _ ?_ ?_ ?_ h
        · intro b hb
          rcases List.mem_append.mp hb with h₁ | h₁
          · exact hdone b h₁
          · rw [List.mem_singleton.mp h₁]
            exact hcur
        · simp [hsz]
        · rcases le_or_lt info.size max with hle | hlt
          · left
            simp [hsz, hle]
          · right
            refine ⟨p, rfl, ?_⟩
            rw [hsz]
            exact hlt
      · rw [if_neg hcond] at h
        refine ih _ _ _ _ hdone ?_ ?_ h
        · simp [hsz, hsum]
        · left
          have h1 : ((cur ++ [p]).map (sizeOfPath fs)).sum = s + info.size := by
            simp [hsz, hsum]
          omega

/-- C6: every batch produced by the greedy grouping has total size at most
the ceiling, except a singleton batch whose single path alone exceeds it. -/
theorem batcher_size_invariant (fs : FS) (filepaths : List String)
    (max : Nat) (chunks : List (List String))
    (h : group_by_chunks_of_max_size fs filepaths max = .ok chunks) :
    ∀ b ∈ chunks, (b.map (sizeOfPath fs)).sum ≤ max ∨
      ∃ p, b = [p] ∧ max < sizeOfPath fs p :=
  groupGo_size_invariant fs max filepaths [] [] 0 chunks (by simp) (by simp)
    (by simp) h

/-- Witness for `batcher_size_invariant`: files of sizes 2, 2, 5 with
ceiling 3 group as `[[a], [b], [c]]`, and the oversized singleton `[c]`
satisfies the exceptional disjunct. -/
theorem batcher_size_invariant_witness :
    group_by_chunks_of_max_size fsABC ["a", "b", "c"] 3 =
      .ok [["a"], ["b"], ["c"]] ∧
    (((["c"] : List String).map (sizeOfPath fsABC)).sum ≤ 3 ∨
      ∃ p, (["c"] : List String) = [p] ∧ 3 < sizeOfPath fsABC p) :=
  ⟨rfl, batcher_size_invariant fsABC ["a", "b", "c"] 3 [["a"], ["b"], ["c"]]
    rfl ["c"] (by decide)⟩

/-- An enqueue attempt either leaves the queue unchanged or appends a path
that was not yet queued. -/
theorem enqueuePath_cases (fs : FS) (max : Nat) (queue : List String)
    (path : String) :
    enqueuePath fs max queue path = queue ∨
      (enqueuePath fs max queue path = queue ++ [path] ∧ path ∉ queue) := by
  cases hstat : FS.stat fs path with
  | none =>
    left
    simp [enqueuePath, hstat]
  | some info =>
    by_cases h₁ : info.isDir = true
    · left
      simp [enqueuePath, hstat, h₁]
    · by_cases h₂ : path ∈ queue
      · left
        simp [enqueuePath, hstat, h₁, h₂]
      · by_cases h₃ : info.size > max
        · left
          simp [enqueuePath, hstat, h₁, h₂, h₃]
        · right
          refine ⟨?_, h₂⟩
          simp [enqueuePath, hstat, h₁, h₂, h₃]

/-- A single enqueue attempt preserves the at-most-one-copy invariant. -/
theorem enqueuePath_count_le_one (fs : FS) (max : Nat) (queue : List String)
    (p path : String) (h : queue.count p ≤ 1) :
    (enqueuePath fs max queue path).count p ≤ 1 := by
  rcases enqueuePath_cases fs max queue path with heq | ⟨heq, hni⟩
  · rw [heq]
    exact h
  · rw [heq, List.count_append]
    by_cases hpp : p = path
    · subst hpp
      have h0 : queue.count p = 0 := List.count_eq_zero.mpr hni
      simp [h0]
    · have h0 : ([path] : List String).count p = 0 := by
        rw [List.count_eq_zero]
        simp [hpp]
      omega

/-- One handler call (any list of event paths) preserves the invariant. -/
theorem handler_call_count_le_one (fs : FS) (max : Nat) (p : String) :
    ∀ (filepaths queue : List String), queue.count p ≤ 1 →
      (UploadFileEventHandler.upload_files fs max queue filepaths).count p
        ≤ 1 := by
  intro filepaths
  induction filepaths with
  | nil =>
    intro queue h
    exact h
  | cons q rest ih =>
    intro queue h
    have := ih (enqueuePath fs max queue q)
      (enqueuePath_count_le_one fs max queue p q h)
    simpa [UploadFileEventHandler.upload_files] using this

/-- Any sequence of handler calls preserves the invariant. -/
theorem handler_seq_count_le_one (fs : FS) (max : Nat) (p : String) :
    ∀ (batches : List (List String)) (queue : List String),
      queue.count p ≤ 1 →
      (batches.foldl (UploadFileEventHandler.upload_files fs max)
        queue).count p ≤ 1 := by
  intro batches
  induction batches with
  | nil =>
    intro queue h
    exact h
  | cons b rest ih =>
    intro queue h
    simpa using ih _ (handler_call_count_le_one fs max p b queue h)

/-- C7: enqueueing an already-pending path leaves the queue (and hence the
path's original position) unchanged, and across any sequence of handler
calls the queue holds at most one copy of a path — exactly one once the path
is present. -/
theorem pending_set_dedup (fs : FS) (max : Nat) (queue : List String)
    (p : String) (batches : List (List String)) (h : queue.count p ≤ 1) :
    (p ∈ queue → enqueuePath fs max queue p = queue) ∧
    (batches.foldl (UploadFileEventHandler.upload_files fs max)
      queue).count p ≤ 1 ∧
    (p ∈ batches.foldl (UploadFileEventHandler.upload_files fs max) queue →
      (batches.foldl (UploadFileEventHandler.upload_files fs max)
        queue).count p = 1) := by
  refine ⟨?_, handler_seq_count_le_one fs max p batches queue h, ?_⟩
  · intro hp
    cases hstat : FS.stat fs p with
    | none => simp [enqueuePath, hstat]
    | some info =>
      by_cases h₁ : info.isDir = true
      · simp [enqueuePath, hstat, h₁]
      · simp [enqueuePath, hstat, h₁, hp]
  · intro hp
    have h1 := handler_seq_count_le_one fs max p batches queue h
    have h2 : 0 <
        (batches.foldl (UploadFileEventHandler.upload_files fs max)
          queue).count p :=
      List.count_pos_iff.mpr hp
    omega

/-- Witness for `pending_set_dedup`: with `b` already pending, re-adding it
(amid an event for the missing path `a`) changes nothing and the count
stays exactly one. -/
theorem pending_set_dedup_witness :
    ((["b"] : List String).count "b" ≤ 1) ∧
    ("b" ∈ (["b"] : List String)) ∧
    enqueuePath fsB 3 ["b"] "b" = ["b"] ∧
    (([["a", "b"]] : List (List String)).foldl
      (UploadFileEventHandler.upload_files fsB 3) ["b"]).count "b" = 1 :=
  ⟨by decide, by decide,
    (pending_set_dedup fsB 3 ["b"] "b" [["a", "b"]] (by decide)).1
      (by decide),
    (pending_set_dedup fsB 3 ["b"] "b" [["a", "b"]] (by decide)).2.2
      (by decide)⟩

/-- C10: the batcher maps the empty path list to `[[]]` (one empty batch,
not zero batches); when the first path alone exceeds the ceiling the chunk
list starts with an empty batch; and a flush of an empty queue therefore
invokes the uploader exactly once, with a batch of zero files. -/
theorem batcher_emits_empty_batch (fs : FS) (net : List String → Bool)
    (max : Nat) (p : String) (rest : List String) (i : FileInfo)
    (chunks : List (List String)) (hstat : FS.stat fs p = some i)
    (hsize : max < i.size)
    (hg : group_by_chunks_of_max_size fs (p :: rest) max = .ok chunks) :
    group_by_chunks_of_max_size fs [] max = .ok [[]] ∧
    chunks.head? = some [] ∧
    (debounced_upload_from_queue fs net max []).sent = [[]] := by
  refine ⟨rfl, ?_, ?_⟩
  · simp only [group_by_chunks_of_max_size, groupGo, hstat] at hg
    rw [if_pos (by omega)] at hg
    obtain ⟨suf, hsuf⟩ := groupGo_extends fs max rest ([] ++ [[]]) [p]
      i.size chunks hg
    subst hsuf
    simp
  · cases hn : net [] <;>
      simp [debounced_upload_from_queue, filter_out_max_size,
        group_by_chunks_of_max_size, groupGo, sendChunks, upload_files, hn,
        removeAll]

/-- Witness for `batcher_emits_empty_batch`: the 5-byte file `big` with
ceiling 3 yields chunks `[[], [big]]`, and the empty-queue flush sends one
empty batch. -/
theorem batcher_emits_empty_batch_witness :
    FS.stat fsBig "big" = some ⟨false, 5⟩ ∧ (3 : Nat) < 5 ∧
    group_by_chunks_of_max_size fsBig ["big"] 3 = .ok [[], ["big"]] ∧
    group_by_chunks_of_max_size fsBig [] 3 = .ok [[]] ∧
    ([[], ["big"]] : List (List String)).head? = some [] ∧
    (debounced_upload_from_queue fsBig netTrue 3 []).sent = [[]] :=
  ⟨rfl, by decide, rfl,
    (batcher_emits_empty_batch fsBig netTrue 3 "big" [] ⟨false, 5⟩
      [[], ["big"]] rfl (by decide) rfl).1,
    (batcher_emits_empty_batch fsBig netTrue 3 "big" [] ⟨false, 5⟩
      [[], ["big"]] rfl (by decide) rfl).2.1,
    (batcher_emits_empty_batch fsBig netTrue 3 "big" [] ⟨false, 5⟩
      [[], ["big"]] rfl (by decide) rfl).2.2⟩
